import Mathlib

/-!
Shallow embedding of the quecto text editor (src/quecto.c).

Rows are lists of bytes (`List Nat`), the editor state mirrors
`struct editorConfig` (the fields the buffer engine uses), and every
operation below is translated from the corresponding C function.
The POSIX regex library (`regcomp`/`regexec`) is an external collaborator
and is modelled as an abstract matcher parameter: a compiled pattern is a
function from the searched suffix to an optional `(rm_so, rm_eo)` pair.
File and terminal I/O results (save success, prompt input) enter as an
explicit environment.
-/

namespace Quecto

/-- `is_utf8_continuation` from quecto.c: a byte of the form `0b10xxxxxx`. -/
def is_utf8_continuation (c : Nat) : Bool := c &&& 0xC0 == 0x80

/-- A byte that `editorOpen`'s trailing-terminator strip removes: `\n` or `\r`. -/
def isNlCr (b : Nat) : Bool := b == 10 || b == 13

/-- Strip all trailing `\n`/`\r` bytes, as the `while (linelen > 0 && ...)`
loop in `editorOpen` does to each line returned by `getline`. -/
def stripNl (l : List Nat) : List Nat := (l.reverse.dropWhile isNlCr).reverse

/-- The sequence of chunks `getline` yields on a byte stream: each chunk runs
up to and including a `\n`, the final chunk may lack one, and EOF on an empty
rest yields nothing. -/
def getLines : List Nat → List (List Nat)
  | [] => []
  | b :: bs =>
    if b = 10 then [10] :: getLines bs
    else
      match getLines bs with
      | [] => [[b]]
      | l :: ls => (b :: l) :: ls

/-- The ordered row contents `editorOpen` produces from file contents:
each `getline` chunk with its trailing terminators stripped. -/
def editorOpenRows (f : List Nat) : List (List Nat) :=
  (getLines f).map stripNl

/-- `editorRowsToString`: every row's bytes followed by a single `\n`. -/
def editorRowsToString : List (List Nat) → List Nat
  | [] => []
  | r :: rs => r ++ 10 :: editorRowsToString rs

/-- The editor state: the fields of `struct editorConfig` that the buffer
engine reads or writes (`rx`, `rowoff`, `coloff` are render-loop derived
state and are recomputed in `main`, not stored behavior of the engine). -/
structure EState where
  cx : Nat
  cy : Nat
  rows : List (List Nat)
  dirty : Nat
  filename : Option String
  statusmsg : String
  screenrows : Nat
deriving Repr, DecidableEq

/-- The row length the cursor-clamping code at the end of
`editorProcessKeypress` computes: `(E.cy < E.numrows) ? E.row[E.cy].size : 0`. -/
def rowLenOf (s : EState) : Nat :=
  if s.cy < s.rows.length then (s.rows.getD s.cy []).length else 0

/-- The cursor clamp at the end of `editorProcessKeypress`:
`if (E.cx > rowlen) E.cx = rowlen`. -/
def clampCx (s : EState) : EState :=
  if s.cx > rowLenOf s then { s with cx := rowLenOf s } else s

/-- `editorInsertRow`: insert a row at `at_` (ignored when out of range),
shifting later rows down; marks dirty. -/
def editorInsertRowS (at_ : Nat) (content : List Nat) (s : EState) : EState :=
  if at_ > s.rows.length then s
  else { s with rows := s.rows.take at_ ++ content :: s.rows.drop at_,
                dirty := s.dirty + 1 }

/-- `editorDelRow`: remove row `at_` if in range; marks dirty. -/
def editorDelRowS (at_ : Nat) (s : EState) : EState :=
  if at_ ≥ s.rows.length then s
  else { s with rows := s.rows.eraseIdx at_, dirty := s.dirty + 1 }

/-- The row part of `editorRowInsertChar`: the insertion offset is reset to
the row end when out of range, then the byte is spliced in. -/
def editorRowInsertChar (r : List Nat) (at_ : Nat) (c : Nat) : List Nat :=
  let a := if at_ > r.length then r.length else at_
  r.take a ++ c :: r.drop a

/-- The backward walk in `editorDelChar`, with the loop measure `cx - d`
made explicit as a structural counter: increment `delete_len` while the byte
before the remaining span is a UTF-8 continuation byte and the span has not
reached the row start. The counter equals the loop condition bound, so the
zero case coincides with the loop exit. -/
def delLenGo (r : List Nat) (cx : Nat) : Nat → Nat → Nat
  | 0, d => d
  | fuel + 1, d =>
    if 0 < cx - d ∧ is_utf8_continuation (r.getD (cx - d) 0) = true then
      delLenGo r cx fuel (d + 1)
    else d

/-- The number of bytes one backspace at byte offset `cx` deletes, starting
the walk at `delete_len = d` (the C code starts at 1). -/
def delLen (r : List Nat) (cx : Nat) (d : Nat) : Nat :=
  delLenGo r cx (cx - d) d

/-- The forward walk in the `DEL_KEY` branch of `editorProcessKeypress`
(`len = 1; while (cx + len < size && is_utf8_continuation(...)) len++`),
with the loop measure `size - (cx + len)` as a structural counter whose zero
case coincides with the loop exit. -/
def fwdLenGo (r : List Nat) (cx : Nat) : Nat → Nat → Nat
  | 0, len => len
  | fuel + 1, len =>
    if cx + len < r.length ∧ is_utf8_continuation (r.getD (cx + len) 0) = true then
      fwdLenGo r cx fuel (len + 1)
    else len

/-- The number of bytes one forward delete at byte offset `cx` removes. -/
def fwdLen (r : List Nat) (cx : Nat) (len : Nat) : Nat :=
  fwdLenGo r cx (r.length - (cx + len)) len

/-- The continuation-byte skip in the `ARROW_RIGHT` branch
(`while (cx < size && is_utf8_continuation(chars[cx])) cx++`), with the loop
measure `size - cx` as a structural counter whose zero case coincides with
the loop exit. -/
def skipContGo (r : List Nat) : Nat → Nat → Nat
  | 0, cx => cx
  | fuel + 1, cx =>
    if cx < r.length ∧ is_utf8_continuation (r.getD cx 0) = true then
      skipContGo r fuel (cx + 1)
    else cx

/-- The byte offset after skipping the continuation bytes from `cx` on. -/
def skipCont (r : List Nat) (cx : Nat) : Nat :=
  skipContGo r (r.length - cx) cx

/-- `editorInsertChar`: append an empty row first when the cursor is parked
one past the last row, then splice the byte in at `cx`. The row-array read
`&E.row[E.cy]` is modelled with `get?`: `none` marks the out-of-bounds access
the C code would perform on a state with `cy > numrows`. -/
def editorInsertChar (s : EState) (c : Nat) : Option EState :=
  let s0 := if s.cy = s.rows.length then editorInsertRowS s.rows.length [] s else s
  match s0.rows.get? s0.cy with
  | none => none
  | some r =>
    some { s0 with rows := s0.rows.set s0.cy (editorRowInsertChar r s0.cx c),
                   cx := s0.cx + 1, dirty := s0.dirty + 1 }

/-- `editorInsertNewline`: at column 0 insert an empty row above; otherwise
split the current row at `cx` (suffix becomes the next row, prefix remains). -/
def editorInsertNewline (s : EState) : Option EState :=
  if s.cx = 0 then
    some { editorInsertRowS s.cy [] s with cy := s.cy + 1, cx := 0 }
  else
    match s.rows.get? s.cy with
    | none => none
    | some r =>
      let s1 := editorInsertRowS (s.cy + 1) (r.drop s.cx) s
      some { s1 with rows := s1.rows.set s.cy ((s1.rows.getD s.cy []).take s.cx),
                     cy := s.cy + 1, cx := 0 }

/-- `editorRowDelBytes` applied to row `at_` of the state: no-op (and no dirty
mark) when the start offset is at or past the row end. -/
def editorRowDelBytesS (s : EState) (rowIdx : Nat) (at_ : Nat) (len : Nat) : EState :=
  match s.rows.get? rowIdx with
  | none => s
  | some r =>
    if at_ ≥ r.length then s
    else { s with rows := s.rows.set rowIdx (r.take at_ ++ r.drop (at_ + len)),
                  dirty := s.dirty + 1 }

/-- `editorDelChar` (backspace): no-op past the last row or at the buffer
start; with `cx > 0` delete the backward-walked span ending at `cx`;
at column 0 of a later row merge into the previous row. -/
def editorDelChar (s : EState) : Option EState :=
  if s.cy = s.rows.length then some s
  else if s.cx = 0 ∧ s.cy = 0 then some s
  else if 0 < s.cx then
    match s.rows.get? s.cy with
    | none => none
    | some r =>
      let d := delLen r s.cx 1
      some { editorRowDelBytesS s s.cy (s.cx - d) d with cx := s.cx - d }
  else
    match s.rows.get? (s.cy - 1), s.rows.get? s.cy with
    | some prev, some cur =>
      let s1 := { s with cx := prev.length,
                         rows := s.rows.set (s.cy - 1) (prev ++ cur),
                         dirty := s.dirty + 1 }
      some { editorDelRowS s.cy s1 with cy := s.cy - 1 }
    | _, _ => none

/-- The `DEL_KEY` branch of `editorProcessKeypress`. The C code reads
`E.row[E.cy].size` before any bounds check on `E.cy`; `get?` returning `none`
marks that out-of-bounds read (on an empty buffer, a NULL dereference). -/
def editorDelForward (s : EState) : Option EState :=
  match s.rows.get? s.cy with
  | none => none
  | some r =>
    if s.cx < r.length then
      some (editorRowDelBytesS s s.cy s.cx (fwdLen r s.cx 1))
    else if s.cy + 1 < s.rows.length then
      match s.rows.get? (s.cy + 1) with
      | none => none
      | some nxt =>
        let s1 := { s with cx := r.length,
                           rows := s.rows.set s.cy (r ++ nxt),
                           dirty := s.dirty + 1 }
        some { editorDelRowS (s.cy + 1) s1 with cy := s1.cy }
    else some s

/-- `editorSave`, with the file-system outcome supplied as `ok`: no filename
means an early return; success clears `dirty`, failure reports an I/O error
and leaves `dirty` untouched. -/
def editorSave (ok : Bool) (s : EState) : EState :=
  match s.filename with
  | none => s
  | some _ =>
    if ok then { s with dirty := 0, statusmsg := "Saved" }
    else { s with statusmsg := "Error: I/O error" }

/-- `editorOpen`, with the file contents supplied (`none` models a missing
file, which leaves the buffer untouched): appends one row per stripped line
and finally resets `dirty` to 0. -/
def editorOpenS (contents : Option (List Nat)) (name : String) (s : EState) : EState :=
  match contents with
  | none => { s with filename := some name }
  | some f =>
    { s with filename := some name, rows := s.rows ++ editorOpenRows f, dirty := 0 }

/-- A compiled POSIX pattern, abstractly: maps the searched suffix to the
leftmost match's `(rm_so, rm_eo)` offsets, or `none` when `regexec` fails. -/
def Matcher : Type := List Nat → Option (Nat × Nat)

/-- The inner `while (regexec(...) == 0)` loop of `editorRegexReplace` on one
row. `fuel` bounds the iterations: the C loop can run forever (a pattern
matching the empty string at the suffix start never advances), and `none`
records that the fuel bound was hit. -/
def replLoop (m : Matcher) (repl : List Nat) (global : Bool) :
    Nat → List Nat → Nat → Nat → Option (List Nat × Nat)
  | 0, _, _, _ => none
  | fuel + 1, row, offset, count =>
    match m (row.drop offset) with
    | none => some (row, count)
    | some (so, eo) =>
      let start := offset + so
      let endp := offset + eo
      let row' := row.take start ++ repl ++ row.drop endp
      if global then replLoop m repl global fuel row' (start + repl.length) (count + 1)
      else some (row', count + 1)

/-- The outer row loop of `editorRegexReplace`: rows in order, carrying the
total count; without the global flag, stop once any replacement happened. -/
def replBuf (m : Matcher) (repl : List Nat) (global : Bool) :
    List (List Nat) → Nat → Option (List (List Nat) × Nat)
  | [], count => some ([], count)
  | r :: rs, count =>
    match replLoop m repl global (r.length + 1) r 0 count with
    | none => none
    | some (r', count') =>
      if global = false ∧ 0 < count' then some (r' :: rs, count')
      else
        match replBuf m repl global rs count' with
        | none => none
        | some (rs', c2) => some (r' :: rs', c2)

/-- The status text `editorRegexReplace` reports on completion. -/
def statusReplaced (n : Nat) : String :=
  "Replaced " ++ toString n ++ " occurrences"

/-- `editorRegexReplace`: a pattern that fails to compile (`none`) reports
the distinct error and changes nothing; otherwise every replacement bumps
`dirty` and the total count is reported. -/
def editorRegexReplace (m : Option Matcher) (repl : List Nat) (global : Bool)
    (s : EState) : Option EState :=
  match m with
  | none => some { s with statusmsg := "Error: Invalid Regex" }
  | some mat =>
    match replBuf mat repl global s.rows 0 with
    | none => none
    | some (rows', count) =>
      some { s with rows := rows', dirty := s.dirty + count,
                    statusmsg := statusReplaced count }

/-- `strchr`-style split at the first occurrence of `b`: the part before it
and the part after it (the delimiter is overwritten by `\0` in the C code). -/
def splitFirst (l : List Nat) (b : Nat) : Option (List Nat × List Nat) :=
  if l.contains b then
    some (l.takeWhile (fun x => x ≠ b), (l.dropWhile (fun x => x ≠ b)).drop 1)
  else none

/-- What a keypress or command ultimately does: leave the editor in a new
state, or exit the process. -/
inductive KeyOutcome where
  | exited : KeyOutcome
  | next : EState → KeyOutcome
deriving Repr, DecidableEq

/-- The environment a key-processing step consumes: the file-system outcome
a save would have, the line the command prompt would return (`none` for a
cancelled prompt), and the regex compiler for `r/` commands. -/
structure Env where
  saveOk : Bool
  promptCmd : Option (List Nat)
  compile : List Nat → Option Matcher

/-- `editorProcessCommand` on the prompt line `cmd` (bytes): `q`, `q!`, `w`,
`wq`, the `r/pattern/replacement/flags` form, and a silent fall-through for
everything else. `none` records a diverging regex substitution. -/
def editorProcessCommand (env : Env) (cmd : List Nat) (s : EState) :
    Option KeyOutcome :=
  if cmd = [] then some (.next s)
  else if cmd = [113] then
    if s.dirty ≠ 0 then some (.next { s with statusmsg := "Unsaved changes!" })
    else some .exited
  else if cmd = [113, 33] then some .exited
  else if cmd = [119] then some (.next (editorSave env.saveOk s))
  else if cmd = [119, 113] then some .exited
  else if cmd.getD 0 0 = 114 ∧ cmd.getD 1 0 = 47 then
    match splitFirst (cmd.drop 2) 47 with
    | none => some (.next s)
    | some (pat, rest) =>
      let repl := match splitFirst rest 47 with
        | none => rest
        | some (r, _) => r
      let g := match splitFirst rest 47 with
        | none => false
        | some (_, flags) => flags.contains 103
      (editorRegexReplace (env.compile pat) repl g s).map .next
  else some (.next s)

/-- `iscntrl` restricted to the byte values the key loop feeds it. -/
def iscntrlB (c : Nat) : Bool := c < 32 || c == 127

/-- The `PAGE_UP` repetition: `times` decrements of `cy`, each guarded by
`cy != 0`. -/
def repUp : Nat → Nat → Nat
  | 0, cy => cy
  | t + 1, cy => repUp t (if cy ≠ 0 then cy - 1 else cy)

/-- The `PAGE_DOWN` repetition: `times` increments of `cy`, each guarded by
`cy < numrows - 1`. -/
def repDown (numrows : Nat) : Nat → Nat → Nat
  | 0, cy => cy
  | t + 1, cy => repDown numrows t (if cy + 1 < numrows then cy + 1 else cy)

/-- The `switch (c)` body of `editorProcessKeypress` (every branch that falls
through to the cursor clamp). Key codes follow `enum editorKey`. -/
def editorKeySwitch (c : Nat) (s : EState) : Option EState :=
  if c = 13 then editorInsertNewline s
  else if c = 1005 then some { s with cx := 0 }
  else if c = 1006 then
    some (if s.cy < s.rows.length
          then { s with cx := (s.rows.getD s.cy []).length } else s)
  else if c = 127 ∨ c = 8 ∨ c = 1004 then
    if c = 1004 then editorDelForward s else editorDelChar s
  else if c = 1002 then some (if s.cy ≠ 0 then { s with cy := s.cy - 1 } else s)
  else if c = 1003 then
    some (if s.cy + 1 < s.rows.length then { s with cy := s.cy + 1 } else s)
  else if c = 1000 then some (if s.cx ≠ 0 then { s with cx := s.cx - 1 } else s)
  else if c = 1001 then
    some (if s.cy < s.rows.length ∧ s.cx < (s.rows.getD s.cy []).length then
            { s with cx := skipCont (s.rows.getD s.cy []) (s.cx + 1) }
          else if s.cy + 1 < s.rows.length then { s with cy := s.cy + 1, cx := 0 }
          else s)
  else if c = 1007 then some { s with cy := repUp s.screenrows s.cy }
  else if c = 1008 then some { s with cy := repDown s.rows.length s.screenrows s.cy }
  else if c = 27 then some s
  else if iscntrlB c = false ∨ c = 9 then editorInsertChar s c
  else some s

/-- `editorProcessKeypress`: the `Ctrl+Q`/`Ctrl+S`/`Ctrl+X` shortcuts return
early (skipping the cursor clamp); every other key goes through the switch
and then the clamp. -/
def editorProcessKeypress (env : Env) (c : Nat) (s : EState) : Option KeyOutcome :=
  if c = 17 then
    if s.dirty ≠ 0 then
      some (.next { s with statusmsg := "Unsaved changes! Press Ctrl+Q again.",
                           dirty := 0 })
    else some .exited
  else if c = 19 then some (.next (editorSave env.saveOk s))
  else if c = 24 then
    match env.promptCmd with
    | none => some (.next { s with statusmsg := "" })
    | some cmd => editorProcessCommand env cmd { s with statusmsg := "" }
  else (editorKeySwitch c s).map (fun u => .next (clampCx u))

/-- `editorRowCxToRx`'s loop: scan bytes left to right while `j < cx`,
expanding tabs to the next multiple of `TAB_STOP = 4`, consuming 2/3/4 bytes
for UTF-8 lead bytes (width 1/2/2), and any other byte as width 1; after
each step, stop if `j` jumped past the row end. -/
def cxToRxGo (row : List Nat) (cx : Nat) : Nat → Nat → Nat → Nat
  | 0, _, rx => rx
  | fuel + 1, j, rx =>
    if j < cx then
      let c := row.getD j 0
      if c = 9 then
        let rx' := rx + (4 - rx % 4)
        if j + 1 > row.length then rx' else cxToRxGo row cx fuel (j + 1) rx'
      else if c &&& 0xE0 = 0xC0 then
        if j + 2 > row.length then rx + 1 else cxToRxGo row cx fuel (j + 2) (rx + 1)
      else if c &&& 0xF0 = 0xE0 then
        if j + 3 > row.length then rx + 2 else cxToRxGo row cx fuel (j + 3) (rx + 2)
      else if c &&& 0xF8 = 0xF0 then
        if j + 4 > row.length then rx + 2 else cxToRxGo row cx fuel (j + 4) (rx + 2)
      else
        if j + 1 > row.length then rx + 1 else cxToRxGo row cx fuel (j + 1) (rx + 1)
    else rx

/-- `editorRowCxToRx(row, cx)`. The loop counter starts at `cx`, an upper
bound on the iterations of the `for (j = 0; j < cx; )` loop (each iteration
advances `j` by at least one), so the counter never exhausts before the loop
condition fails. -/
def editorRowCxToRx (row : List Nat) (cx : Nat) : Nat := cxToRxGo row cx cx 0 0

/-- Modelled from the spec: the byte-class length of a lead byte
(2/3/4-byte UTF-8 sequences; any other byte, tab included, consumes 1). -/
def classLen (c : Nat) : Nat :=
  if c &&& 0xE0 = 0xC0 then 2
  else if c &&& 0xF0 = 0xE0 then 3
  else if c &&& 0xF8 = 0xF0 then 4
  else 1

/-- Modelled from the spec: the render-column advance for a byte at render
column `rx` (tab to the next multiple of the stop; wide classes 2; else 1). -/
def classAdv (rx : Nat) (c : Nat) : Nat :=
  if c = 9 then 4 - rx % 4
  else if c &&& 0xE0 = 0xC0 then 1
  else if c &&& 0xF0 = 0xE0 then 2
  else if c &&& 0xF8 = 0xF0 then 2
  else 1

/-- Modelled from the spec: the coordinate map as the spec words it — walk
the remaining bytes with a remaining byte budget, advance the render column
per byte class, consume the class length, and stop once consumption would
overrun the row end (never reading past it). The first argument is a
structural counter bounding the steps; the budget shrinks by at least one
per step, so a counter starting at the budget never runs out first. -/
def cxToRxSpecGo : Nat → List Nat → Nat → Nat → Nat
  | 0, _, _, rx => rx
  | _ + 1, _, 0, rx => rx
  | _ + 1, [], _ + 1, rx => rx
  | fuel + 1, c :: rest, b + 1, rx =>
    let k := classLen c
    let rx' := rx + classAdv rx c
    if k > rest.length + 1 then rx'
    else cxToRxSpecGo fuel (rest.drop (k - 1)) (b + 1 - k) rx'

/-- Modelled from the spec: render column of byte offset `cx`. -/
def cxToRxSpec (row : List Nat) (cx : Nat) : Nat := cxToRxSpecGo cx row cx 0

/-- Modelled from the spec: the POSIX leftmost-longest match of the extended
regular expression `a+` within a byte string — the earliest `a`, extended
over the maximal run of `a`s. -/
def matchAPlus : List Nat → Option (Nat × Nat)
  | [] => none
  | b :: rest =>
    if b = 97 then some (0, 1 + (rest.takeWhile (fun x => x == 97)).length)
    else
      match matchAPlus rest with
      | none => none
      | some (so, eo) => some (so + 1, eo + 1)

/-- The concrete row of three 3-byte characters (three euro signs). -/
def tripleRowState : EState :=
  { cx := 9, cy := 0, rows := [[226, 130, 172, 226, 130, 172, 226, 130, 172]],
    dirty := 0, filename := none, statusmsg := "", screenrows := 10 }
/-- The replacement count a finished buffer pass reports (0 when the pass
diverged). -/
def replCount (o : Option (List (List Nat) × Nat)) : Nat :=
  match o with
  | some (_, c) => c
  | none => 0
/-- The spec's regex example buffer: rows `["aaa", "xaay", "aaa"]`. -/
def regexExampleState : EState :=
  { cx := 0, cy := 0, rows := [[97, 97, 97], [120, 97, 97, 121], [97, 97, 97]],
    dirty := 0, filename := none, statusmsg := "", screenrows := 10 }
/-- A fixed environment: saves succeed, the prompt is cancelled, no pattern
compiles. -/
def env0 : Env := { saveOk := true, promptCmd := none, compile := fun _ => none }
/-- The 5-row buffer of the spec's line-jump example, cursor at the top. -/
def fiveRowState : EState :=
  { cx := 0, cy := 0, rows := [[97], [98], [99], [100], [101]], dirty := 0,
    filename := none, statusmsg := "", screenrows := 10 }
/-- The freshly initialized editor: an empty buffer, cursor at `(0, 0)` —
so the cursor sits one row past the (nonexistent) last row. -/
def emptyBufState : EState :=
  { cx := 0, cy := 0, rows := [], dirty := 0, filename := none,
    statusmsg := "", screenrows := 10 }
/-- A one-row dirty buffer. -/
def dirtyState : EState :=
  { cx := 0, cy := 0, rows := [[97]], dirty := 1, filename := none,
    statusmsg := "", screenrows := 10 }
/-- A row holding the 2-byte character `é` with the cursor after it. -/
def accentRowState : EState :=
  { cx := 2, cy := 0, rows := [[195, 169]], dirty := 0, filename := none,
    statusmsg := "", screenrows := 10 }

lemma stripNl_eq_rdropWhile (l : List Nat) : stripNl l = l.rdropWhile isNlCr := rfl

lemma stripNl_concat_nl (l : List Nat) : stripNl (l ++ [10]) = stripNl l := by
  rw [stripNl_eq_rdropWhile, stripNl_eq_rdropWhile]
  exact List.rdropWhile_concat_pos _ _ _ (by decide)

lemma stripNl_idem (l : List Nat) : stripNl (stripNl l) = stripNl l := by
  rw [stripNl_eq_rdropWhile, stripNl_eq_rdropWhile]
  exact List.rdropWhile_idempotent _ _

lemma stripNl_subset (l : List Nat) : ∀ b ∈ stripNl l, b ∈ l := by
  intro b hb
  rw [stripNl_eq_rdropWhile] at hb
  exact (List.rdropWhile_prefix _ _).sublist.subset hb

lemma dropWhile_append_of_all {p : Nat → Bool} {xs : List Nat} (ys : List Nat)
    (h : ∀ x ∈ xs, p x) :
    List.dropWhile p (xs ++ ys) = List.dropWhile p ys := by
  induction xs with
  | nil => rfl
  | cons a l ih =>
    simp only [List.cons_append, List.dropWhile_cons]
    rw [if_pos (h a (by simp)), ih (fun x hx => h x (by simp [hx]))]

lemma dropWhile_append_of_ne_nil {p : Nat → Bool} {xs : List Nat} (ys : List Nat)
    (h : List.dropWhile p xs ≠ []) :
    List.dropWhile p (xs ++ ys) = List.dropWhile p xs ++ ys := by
  induction xs with
  | nil => simp at h
  | cons a l ih =>
    by_cases hp : p a
    · simp only [List.cons_append, List.dropWhile_cons, hp, if_true] at h ⊢
      exact ih h
    · simp only [List.cons_append, List.dropWhile_cons, hp, Bool.false_eq_true,
        if_false]

lemma stripNl_cons (b : Nat) (l : List Nat) :
    stripNl (b :: l) = if stripNl l = [] then stripNl [b] else b :: stripNl l := by
  have hrev : (b :: l).reverse = l.reverse ++ [b] := by simp
  by_cases h : stripNl l = []
  · have hall : ∀ x ∈ l.reverse, isNlCr x := by
      have := congrArg List.reverse h
      simp only [stripNl, List.reverse_reverse, List.reverse_nil] at this
      exact List.dropWhile_eq_nil_iff.mp this
    rw [if_pos h]
    simp only [stripNl, hrev, dropWhile_append_of_all [b] hall]
    rfl
  · have hne : List.dropWhile isNlCr l.reverse ≠ [] := by
      intro hc
      exact h (by simp [stripNl, hc])
    rw [if_neg h]
    simp [stripNl, hrev, dropWhile_append_of_ne_nil [b] hne]

lemma getLines_cons10 (bs : List Nat) : getLines (10 :: bs) = [10] :: getLines bs := by
  simp [getLines]

lemma getLines_cons_of_nil {b : Nat} {bs : List Nat} (hb : b ≠ 10)
    (h : getLines bs = []) : getLines (b :: bs) = [[b]] := by
  simp [getLines, hb, h]

lemma getLines_cons_of_cons {b : Nat} {bs : List Nat} {l : List Nat}
    {ls : List (List Nat)} (hb : b ≠ 10) (h : getLines bs = l :: ls) :
    getLines (b :: bs) = (b :: l) :: ls := by
  simp [getLines, hb, h]

lemma getLines_ne_nil {f : List Nat} (h : f ≠ []) : getLines f ≠ [] := by
  cases f with
  | nil => exact absurd rfl h
  | cons b bs =>
    by_cases hb : b = 10
    · subst hb; rw [getLines_cons10]; exact List.cons_ne_nil _ _
    · cases hgl : getLines bs with
      | nil => rw [getLines_cons_of_nil hb hgl]; exact List.cons_ne_nil _ _
      | cons l ls => rw [getLines_cons_of_cons hb hgl]; exact List.cons_ne_nil _ _

lemma getLines_shape {f : List Nat} :
    ∀ l ∈ getLines f, ∃ w, (10 ∉ w) ∧ (l = w ∨ l = w ++ [10]) := by
  induction f with
  | nil => intro l hl; simp [getLines] at hl
  | cons b bs ih =>
    intro l hl
    by_cases hb : b = 10
    · subst hb
      rw [getLines_cons10] at hl
      rcases List.mem_cons.mp hl with rfl | hl
      · exact ⟨[], by simp⟩
      · exact ih l hl
    · cases hgl : getLines bs with
      | nil =>
        rw [getLines_cons_of_nil hb hgl] at hl
        simp only [List.mem_singleton] at hl
        subst hl
        refine ⟨[b], ?_, Or.inl rfl⟩
        simp only [List.mem_singleton]
        exact fun hc => hb hc.symm
      | cons l0 ls0 =>
        rw [getLines_cons_of_cons hb hgl] at hl
        rcases List.mem_cons.mp hl with rfl | hmem
        · obtain ⟨w, hw, hcase⟩ := ih l0 (by rw [hgl]; exact List.mem_cons_self _ _)
          refine ⟨b :: w, ?_, ?_⟩
          · simp only [List.mem_cons, not_or]
            exact ⟨fun hc => hb hc.symm, hw⟩
          · rcases hcase with rfl | rfl
            · exact Or.inl rfl
            · exact Or.inr (by simp)
        · exact ih l (by rw [hgl]; exact List.mem_cons_of_mem _ hmem)

lemma openRows_no_nl {f : List Nat} : ∀ r ∈ editorOpenRows f, 10 ∉ r := by
  intro r hr
  obtain ⟨l, hl, rfl⟩ := List.mem_map.mp hr
  obtain ⟨w, hw, hcase⟩ := getLines_shape l hl
  intro hmem
  rcases hcase with rfl | rfl
  · exact hw (stripNl_subset _ _ hmem)
  · rw [stripNl_concat_nl] at hmem
    exact hw (stripNl_subset _ _ hmem)

lemma getLines_row_append {r : List Nat} (t : List Nat) (h : 10 ∉ r) :
    getLines (r ++ 10 :: t) = (r ++ [10]) :: getLines t := by
  induction r with
  | nil => simp [getLines_cons10]
  | cons b r' ih =>
    have hb : b ≠ 10 := fun hc => h (by simp [hc])
    have h' : 10 ∉ r' := fun hc => h (by simp [hc])
    rw [List.cons_append, getLines_cons_of_cons hb (ih h')]
    rfl

lemma getLines_rowsToString {rows : List (List Nat)} (h : ∀ r ∈ rows, 10 ∉ r) :
    getLines (editorRowsToString rows) = rows.map (fun r => r ++ [10]) := by
  induction rows with
  | nil => rfl
  | cons r rs ih =>
    simp only [editorRowsToString, List.map_cons]
    rw [getLines_row_append _ (h r (List.mem_cons_self _ _)),
      ih (fun x hx => h x (List.mem_cons_of_mem _ hx))]

lemma rowsToString_length (rows : List (List Nat)) :
    (editorRowsToString rows).length = (rows.map (fun r => r.length + 1)).sum := by
  induction rows with
  | nil => rfl
  | cons r rs ih => simp [editorRowsToString, ih]; omega

lemma openRows_roundtrip (f : List Nat) :
    editorOpenRows (editorRowsToString (editorOpenRows f)) = editorOpenRows f := by
  rw [editorOpenRows, getLines_rowsToString openRows_no_nl, List.map_map]
  show List.map (fun r => stripNl (r ++ [10])) (editorOpenRows f) = editorOpenRows f
  rw [List.map_congr_left (fun r _ => stripNl_concat_nl r)]
  rw [editorOpenRows, List.map_map]
  exact List.map_congr_left (fun l _ => stripNl_idem l)

lemma openRows_terminator {f : List Nat} (h0 : f ≠ []) (h10 : f.getLast? ≠ some 10) :
    editorOpenRows (f ++ [10]) = editorOpenRows f := by
  induction f with
  | nil => exact absurd rfl h0
  | cons b bs ih =>
    cases bs with
    | nil =>
      have hb : b ≠ 10 := by
        intro hc; exact h10 (by simp [hc])
      show editorOpenRows [b, 10] = editorOpenRows [b]
      have h1 : getLines [b, 10] = [[b, 10]] := by
        rw [show ([b, 10] : List Nat) = b :: [10] from rfl,
          getLines_cons_of_cons hb (getLines_cons10 [])]
        rfl
      have h2 : getLines [b] = [[b]] := getLines_cons_of_nil hb rfl
      simp only [editorOpenRows, h1, h2, List.map_cons, List.map_nil]
      rw [show ([b, 10] : List Nat) = [b] ++ [10] from rfl, stripNl_concat_nl]
    | cons b2 bs2 =>
      have hlast : (b2 :: bs2).getLast? ≠ some 10 := by
        rwa [List.getLast?_cons_cons] at h10
      have ihs := ih (List.cons_ne_nil _ _) hlast
      simp only [editorOpenRows] at ihs
      by_cases hb : b = 10
      · subst hb
        show editorOpenRows (10 :: ((b2 :: bs2) ++ [10])) = editorOpenRows (10 :: (b2 :: bs2))
        simp only [editorOpenRows, getLines_cons10, List.map_cons]
        rw [ihs]
      · obtain ⟨l, ls, hgl⟩ : ∃ l ls, getLines ((b2 :: bs2) ++ [10]) = l :: ls := by
          cases hg : getLines ((b2 :: bs2) ++ [10]) with
          | nil => exact absurd hg (getLines_ne_nil (by simp))
          | cons l ls => exact ⟨l, ls, rfl⟩
        obtain ⟨l', ls', hgl'⟩ : ∃ l ls, getLines (b2 :: bs2) = l :: ls := by
          cases hg : getLines (b2 :: bs2) with
          | nil => exact absurd hg (getLines_ne_nil (by simp))
          | cons l ls => exact ⟨l, ls, rfl⟩
        have hihs : stripNl l = stripNl l' ∧ List.map stripNl ls = List.map stripNl ls' := by
          rw [hgl, hgl'] at ihs
          simp only [List.map_cons, List.cons.injEq] at ihs
          exact ihs
        show editorOpenRows (b :: ((b2 :: bs2) ++ [10])) = editorOpenRows (b :: (b2 :: bs2))
        rw [editorOpenRows, editorOpenRows,
          getLines_cons_of_cons hb hgl,
          getLines_cons_of_cons hb hgl']
        simp only [List.map_cons]
        rw [stripNl_cons b l, stripNl_cons b l', hihs.1, hihs.2]

/-- C1: loading file contents, serializing, and loading again reproduces the
same ordered row contents; the serialized length is the sum of row lengths
plus one terminator per row; and appending a final line terminator to a file
that lacks one does not change the loaded rows. -/
theorem serialize_load_roundtrip :
    (∀ f : List Nat,
      editorOpenRows (editorRowsToString (editorOpenRows f)) = editorOpenRows f)
    ∧ (∀ rows : List (List Nat),
      (editorRowsToString rows).length = (rows.map (fun r => r.length + 1)).sum)
    ∧ (∀ f : List Nat, f ≠ [] → f.getLast? ≠ some 10 →
      editorOpenRows (f ++ [10]) = editorOpenRows f) :=
  ⟨openRows_roundtrip, rowsToString_length, fun _ h1 h2 => openRows_terminator h1 h2⟩

/-- Witness for the terminator-insensitive part of C1 at the concrete file
`"a"`: appending the final newline yields the same single row. -/
theorem serialize_load_roundtrip_witness :
    editorOpenRows ([97] ++ [10]) = editorOpenRows [97] :=
  serialize_load_roundtrip.2.2 [97] (by decide) (by decide)

lemma delLen_unfold (r : List Nat) (cx d : Nat) :
    delLen r cx d =
      if 0 < cx - d ∧ is_utf8_continuation (r.getD (cx - d) 0) = true
      then delLen r cx (d + 1) else d := by
  by_cases hz : cx - d = 0
  · have h0 : delLen r cx d = delLenGo r cx 0 d := by rw [delLen, hz]
    rw [h0, if_neg (fun hc => absurd hc.1 (by omega))]
    rfl
  · obtain ⟨fuel, hf⟩ : ∃ f, cx - d = f + 1 := ⟨cx - d - 1, by omega⟩
    have h1 : delLen r cx d = delLenGo r cx (fuel + 1) d := by rw [delLen, hf]
    have h2 : delLen r cx (d + 1) = delLenGo r cx fuel (d + 1) := by
      rw [delLen, show cx - (d + 1) = fuel from by omega]
    rw [h1, h2]
    rfl

lemma delLen_props (r : List Nat) (cx : Nat) :
    ∀ n d, cx - d = n → 0 < d → d ≤ cx →
      d ≤ delLen r cx d ∧ delLen r cx d ≤ cx
      ∧ (∀ i, cx - delLen r cx d < i → i ≤ cx - d →
          is_utf8_continuation (r.getD i 0) = true)
      ∧ (cx - delLen r cx d = 0 ∨
          is_utf8_continuation (r.getD (cx - delLen r cx d) 0) = false) := by
  intro n
  induction n using Nat.strong_induction_on with
  | _ n ih =>
    intro d hn hd0 hdc
    rw [delLen_unfold]
    by_cases hcond : 0 < cx - d ∧ is_utf8_continuation (r.getD (cx - d) 0) = true
    · rw [if_pos hcond]
      have hrec := ih (cx - (d + 1)) (by omega) (d + 1) rfl (by omega) (by omega)
      obtain ⟨ha, hb, hc, hd⟩ := hrec
      refine ⟨by omega, hb, ?_, hd⟩
      intro i hi1 hi2
      rcases Nat.lt_or_ge i (cx - d) with hlt | hge
      · exact hc i hi1 (by omega)
      · have : i = cx - d := by omega
        subst this
        exact hcond.2
    · rw [if_neg hcond]
      refine ⟨le_refl d, hdc, ?_, ?_⟩
      · intro i hi1 hi2; omega
      · by_cases hz : cx - d = 0
        · exact Or.inl hz
        · refine Or.inr ?_
          rcases Bool.eq_false_or_eq_true (is_utf8_continuation (r.getD (cx - d) 0)) with ht | hf
          · exact absurd ⟨by omega, ht⟩ hcond
          · exact hf

/-- C5: with `cx > 0`, one backspace deletes exactly the backward-walked span
ending at `cx` — the walk takes at least one byte, stays within the row,
covers only continuation bytes strictly between the new and old cursor, and
stops at the row start or on a non-continuation byte — and decrements `cx`
by the deleted byte count; moreover three backspaces on a row of three
3-byte characters empty the row. -/
theorem backspace_deletes_character :
    (∀ (s : EState) (r : List Nat), s.rows.get? s.cy = some r → 0 < s.cx →
      s.cx ≤ r.length →
      editorDelChar s = some { s with
          rows := s.rows.set s.cy (r.take (s.cx - delLen r s.cx 1) ++ r.drop s.cx),
          cx := s.cx - delLen r s.cx 1, dirty := s.dirty + 1 }
      ∧ 1 ≤ delLen r s.cx 1 ∧ delLen r s.cx 1 ≤ s.cx
      ∧ (∀ i, s.cx - delLen r s.cx 1 < i → i < s.cx →
          is_utf8_continuation (r.getD i 0) = true)
      ∧ (s.cx - delLen r s.cx 1 = 0 ∨
          is_utf8_continuation (r.getD (s.cx - delLen r s.cx 1) 0) = false))
    ∧ ((editorDelChar tripleRowState).bind
        (fun s1 => (editorDelChar s1).bind editorDelChar)
        = some { tripleRowState with rows := [[]], cx := 0, dirty := 3 }) := by
  constructor
  · intro s r h1 h2 h3
    have hcy : s.cy < s.rows.length := (List.get?_eq_some.mp h1).1
    obtain ⟨ha, hb, hc, hd⟩ := delLen_props r s.cx (s.cx - 1) 1 rfl (by omega) (by omega)
    set d := delLen r s.cx 1 with hdl
    have hdel : editorDelChar s
        = some { editorRowDelBytesS s s.cy (s.cx - d) d with cx := s.cx - d } := by
      rw [editorDelChar, if_neg (by omega), if_neg (by omega), if_pos h2, h1]
    have hstep : editorRowDelBytesS s s.cy (s.cx - d) d
        = if s.cx - d ≥ r.length then s
          else { s with rows := s.rows.set s.cy (r.take (s.cx - d) ++ r.drop (s.cx - d + d)), dirty := s.dirty + 1 } := by
      rw [editorRowDelBytesS, h1]
    have hrdb : editorRowDelBytesS s s.cy (s.cx - d) d
        = { s with rows := s.rows.set s.cy (r.take (s.cx - d) ++ r.drop s.cx), dirty := s.dirty + 1 } := by
      rw [hstep, if_neg (by omega), show s.cx - d + d = s.cx from by omega]
    rw [hdel, hrdb]
    refine ⟨rfl, ha, hb, ?_, hd⟩
    intro i hi1 hi2
    exact hc i hi1 (by omega)
  · decide

/-- Witness for C5 at a single 3-byte character: the backspace removes
exactly its 3 bytes and lands the cursor on a character boundary (offset 0). -/
theorem backspace_deletes_character_witness :
    editorDelChar { cx := 3, cy := 0, rows := [[226, 130, 172]], dirty := 0,
                    filename := none, statusmsg := "", screenrows := 10 }
      = some { cx := 0, cy := 0, rows := [[]], dirty := 1,
               filename := none, statusmsg := "", screenrows := 10 }
    ∧ delLen [226, 130, 172] 3 1 = 3 := by
  have h := backspace_deletes_character.1
    { cx := 3, cy := 0, rows := [[226, 130, 172]], dirty := 0,
      filename := none, statusmsg := "", screenrows := 10 }
    [226, 130, 172] rfl (by decide) (by decide)
  exact ⟨by simpa using h.1, by decide⟩

/-- C6: backspace at column 0 of a later row appends the current row to the
previous row, removes the current row, and puts the cursor at the previous
row's original end column. -/
theorem backspace_merges_rows (s : EState) (prev cur : List Nat)
    (h1 : s.rows.get? (s.cy - 1) = some prev) (h2 : s.rows.get? s.cy = some cur)
    (h3 : s.cx = 0) (h4 : 0 < s.cy) :
    editorDelChar s = some { s with
        rows := (s.rows.set (s.cy - 1) (prev ++ cur)).eraseIdx s.cy,
        cx := prev.length, cy := s.cy - 1, dirty := s.dirty + 2 } := by
  have hcy : s.cy < s.rows.length := (List.get?_eq_some.mp h2).1
  have hstep : editorDelChar s
      = some { editorDelRowS s.cy { s with cx := prev.length, rows := s.rows.set (s.cy - 1) (prev ++ cur), dirty := s.dirty + 1 } with cy := s.cy - 1 } := by
    rw [editorDelChar, if_neg (by omega), if_neg (by omega), if_neg (by omega),
      h1, h2]
  have hdr : editorDelRowS s.cy { s with cx := prev.length, rows := s.rows.set (s.cy - 1) (prev ++ cur), dirty := s.dirty + 1 }
      = { s with cx := prev.length, rows := (s.rows.set (s.cy - 1) (prev ++ cur)).eraseIdx s.cy, dirty := s.dirty + 2 } := by
    rw [editorDelRowS]
    rw [if_neg (by simp only [List.length_set]; omega)]
  rw [hstep, hdr]

/-- Witness for C6 at the spec's example: buffer `["abc", "def"]`, cursor at
row 1 column 0; the merge yields the single row `"abcdef"` with the cursor
at column 3. -/
theorem backspace_merges_rows_witness :
    editorDelChar { cx := 0, cy := 1, rows := [[97, 98, 99], [100, 101, 102]],
                    dirty := 0, filename := none, statusmsg := "", screenrows := 10 }
      = some { cx := 3, cy := 0, rows := [[97, 98, 99, 100, 101, 102]],
               dirty := 2, filename := none, statusmsg := "", screenrows := 10 } := by
  have h := backspace_merges_rows
    { cx := 0, cy := 1, rows := [[97, 98, 99], [100, 101, 102]],
      dirty := 0, filename := none, statusmsg := "", screenrows := 10 }
    [97, 98, 99] [100, 101, 102] rfl rfl rfl (by decide)
  simpa using h

lemma drop_cons_getD (l : List Nat) (j : Nat) (h : j < l.length) :
    l.drop j = l.getD j 0 :: l.drop (j + 1) := by
  rw [List.getD_eq_getElem l 0 h]
  exact List.drop_eq_getElem_cons h

lemma getD_append_left (l l2 : List Nat) (j : Nat) (h : j < l.length) :
    (l ++ l2).getD j 0 = l.getD j 0 := by
  rw [List.getD_eq_getElem _ _ (by simp; omega), List.getD_eq_getElem _ _ h]
  exact List.getElem_append_left _

lemma cxToRxGo_exit (row : List Nat) (cx : Nat) :
    ∀ fuel j rx, cx ≤ j → cxToRxGo row cx fuel j rx = rx := by
  intro fuel j rx h
  cases fuel with
  | zero => rfl
  | succ fuel =>
    rw [cxToRxGo, if_neg (by omega)]

lemma cxToRxGo_spec (row : List Nat) (cx : Nat) (hcx : cx ≤ row.length) :
    ∀ fuel j rx, cx - j ≤ fuel →
      cxToRxGo row cx fuel j rx = cxToRxSpecGo fuel (row.drop j) (cx - j) rx := by
  intro fuel
  induction fuel with
  | zero => intro j rx hf; rfl
  | succ fuel ih =>
    intro j rx hf
    rcases Nat.lt_or_ge j cx with hj | hj
    · have hjlen : j < row.length := Nat.lt_of_lt_of_le hj hcx
      obtain ⟨bud, hbud⟩ : ∃ b, cx - j = b + 1 := ⟨cx - j - 1, by omega⟩
      rw [hbud, drop_cons_getD row j hjlen]
      have hrl : (row.drop (j + 1)).length = row.length - (j + 1) := by simp
      by_cases h9 : row.getD j 0 = 9
      · have hk : classLen (row.getD j 0) = 1 := by rw [h9]; decide
        have hadv : classAdv rx (row.getD j 0) = 4 - rx % 4 := by rw [h9]; rfl
        simp only [cxToRxGo, cxToRxSpecGo, if_pos hj, if_pos h9, hk, hadv, hrl]
        have hdd : (row.drop (j + 1)).drop (1 - 1) = row.drop (j + 1) := by simp
        have hbb : bud + 1 - 1 = cx - (j + 1) := by omega
        rw [if_neg (by omega), if_neg (by omega), hdd, hbb, ih _ _ (by omega)]
      · by_cases h2 : row.getD j 0 &&& 0xE0 = 0xC0
        · have hk : classLen (row.getD j 0) = 2 := by
            simp only [classLen, if_pos h2]
          have hadv : classAdv rx (row.getD j 0) = 1 := by
            simp only [classAdv, if_neg h9, if_pos h2]
          simp only [cxToRxGo, cxToRxSpecGo, if_pos hj, if_neg h9, if_pos h2,
            hk, hadv, hrl]
          by_cases hov : j + 2 > row.length
          · rw [if_pos hov, if_pos (by omega)]
          · have hdd : (row.drop (j + 1)).drop (2 - 1) = row.drop (j + 2) := by
              rw [List.drop_drop]
            have hbb : bud + 1 - 2 = cx - (j + 2) := by omega
            rw [if_neg hov, if_neg (by omega), hdd, hbb, ih _ _ (by omega)]
        · by_cases h3 : row.getD j 0 &&& 0xF0 = 0xE0
          · have hk : classLen (row.getD j 0) = 3 := by
              simp only [classLen, if_neg h2, if_pos h3]
            have hadv : classAdv rx (row.getD j 0) = 2 := by
              simp only [classAdv, if_neg h9, if_neg h2, if_pos h3]
            simp only [cxToRxGo, cxToRxSpecGo, if_pos hj, if_neg h9, if_neg h2,
              if_pos h3, hk, hadv, hrl]
            by_cases hov : j + 3 > row.length
            · rw [if_pos hov, if_pos (by omega)]
            · have hdd : (row.drop (j + 1)).drop (3 - 1) = row.drop (j + 3) := by
                rw [List.drop_drop]
              have hbb : bud + 1 - 3 = cx - (j + 3) := by omega
              rw [if_neg hov, if_neg (by omega), hdd, hbb, ih _ _ (by omega)]
          · by_cases h4 : row.getD j 0 &&& 0xF8 = 0xF0
            · have hk : classLen (row.getD j 0) = 4 := by
                simp only [classLen, if_neg h2, if_neg h3, if_pos h4]
              have hadv : classAdv rx (row.getD j 0) = 2 := by
                simp only [classAdv, if_neg h9, if_neg h2, if_neg h3, if_pos h4]
              simp only [cxToRxGo, cxToRxSpecGo, if_pos hj, if_neg h9, if_neg h2,
                if_neg h3, if_pos h4, hk, hadv, hrl]
              by_cases hov : j + 4 > row.length
              · rw [if_pos hov, if_pos (by omega)]
              · have hdd : (row.drop (j + 1)).drop (4 - 1) = row.drop (j + 4) := by
                  rw [List.drop_drop]
                have hbb : bud + 1 - 4 = cx - (j + 4) := by omega
                rw [if_neg hov, if_neg (by omega), hdd, hbb, ih _ _ (by omega)]
            · have hk : classLen (row.getD j 0) = 1 := by
                simp only [classLen, if_neg h2, if_neg h3, if_neg h4]
              have hadv : classAdv rx (row.getD j 0) = 1 := by
                simp only [classAdv, if_neg h9, if_neg h2, if_neg h3, if_neg h4]
              simp only [cxToRxGo, cxToRxSpecGo, if_pos hj, if_neg h9, if_neg h2,
                if_neg h3, if_neg h4, hk, hadv, hrl]
              have hdd : (row.drop (j + 1)).drop (1 - 1) = row.drop (j + 1) := by
                simp
              have hbb : bud + 1 - 1 = cx - (j + 1) := by omega
              rw [if_neg (by omega), if_neg (by omega), hdd, hbb,
                ih _ _ (by omega)]
    · rw [cxToRxGo_exit row cx _ j rx hj, show cx - j = 0 from by omega]
      cases row.drop j <;> rfl

lemma cxToRxGo_append (row ext : List Nat) (cx : Nat) (hcx : cx ≤ row.length) :
    ∀ fuel j rx, cxToRxGo (row ++ ext) cx fuel j rx = cxToRxGo row cx fuel j rx := by
  intro fuel
  induction fuel with
  | zero => intro j rx; rfl
  | succ fuel ih =>
    intro j rx
    rcases Nat.lt_or_ge j cx with hj | hj
    · have hjlen : j < row.length := Nat.lt_of_lt_of_le hj hcx
      simp only [cxToRxGo, if_pos hj, getD_append_left row ext j hjlen,
        List.length_append]
      by_cases h9 : row.getD j 0 = 9
      · simp only [if_pos h9]
        by_cases hov : j + 1 > row.length
        · rw [if_neg (by omega), if_pos hov,
            cxToRxGo_exit (row ++ ext) cx _ _ _ (by omega)]
        · rw [if_neg (by omega), if_neg hov, ih]
      · by_cases h2 : row.getD j 0 &&& 0xE0 = 0xC0
        · simp only [if_neg h9, if_pos h2]
          by_cases hov : j + 2 > row.length
          · by_cases hov2 : j + 2 > row.length + ext.length
            · rw [if_pos hov2, if_pos hov]
            · rw [if_neg hov2, if_pos hov, ih,
                cxToRxGo_exit row cx _ _ _ (by omega)]
          · rw [if_neg (by omega), if_neg hov, ih]
        · by_cases h3 : row.getD j 0 &&& 0xF0 = 0xE0
          · simp only [if_neg h9, if_neg h2, if_pos h3]
            by_cases hov : j + 3 > row.length
            · by_cases hov2 : j + 3 > row.length + ext.length
              · rw [if_pos hov2, if_pos hov]
              · rw [if_neg hov2, if_pos hov, ih,
                  cxToRxGo_exit row cx _ _ _ (by omega)]
            · rw [if_neg (by omega), if_neg hov, ih]
          · by_cases h4 : row.getD j 0 &&& 0xF8 = 0xF0
            · simp only [if_neg h9, if_neg h2, if_neg h3, if_pos h4]
              by_cases hov : j + 4 > row.length
              · by_cases hov2 : j + 4 > row.length + ext.length
                · rw [if_pos hov2, if_pos hov]
                · rw [if_neg hov2, if_pos hov, ih,
                    cxToRxGo_exit row cx _ _ _ (by omega)]
              · rw [if_neg (by omega), if_neg hov, ih]
            · simp only [if_neg h9, if_neg h2, if_neg h3, if_neg h4]
              by_cases hov : j + 1 > row.length
              · rw [if_neg (by omega), if_pos hov,
                  cxToRxGo_exit (row ++ ext) cx _ _ _ (by omega)]
              · rw [if_neg (by omega), if_neg hov, ih]
    · rw [cxToRxGo_exit _ cx _ j rx hj, cxToRxGo_exit row cx _ j rx hj]

/-- C8: for `cx` within the row, the byte-offset-to-render-column map agrees
with the spec's left-to-right byte-class scan (tab to the next multiple of
the 4-column stop, 1 column for a 2-byte lead or any other single byte, 2
for 3- and 4-byte leads, consuming the class length, and stopping once
consumption overruns the row end), and its value never depends on bytes past
the row end; it is a pure function of the row and the offset. -/
theorem cx_to_rx_matches_spec (row : List Nat) (cx : Nat) (ext : List Nat)
    (hcx : cx ≤ row.length) :
    editorRowCxToRx row cx = cxToRxSpec row cx
    ∧ editorRowCxToRx (row ++ ext) cx = editorRowCxToRx row cx := by
  constructor
  · have h := cxToRxGo_spec row cx hcx cx 0 0 (by omega)
    simpa [editorRowCxToRx, cxToRxSpec] using h
  · exact cxToRxGo_append row ext cx hcx cx 0 0

/-- Witness for C8 at the row `"a", tab, é, €` (an ASCII byte, a tab, a
2-byte sequence, a 3-byte sequence) with `cx` at the row end and a stray
continuation byte appended past the end. -/
theorem cx_to_rx_matches_spec_witness :
    editorRowCxToRx [97, 9, 195, 169, 226, 130, 172] 7
      = cxToRxSpec [97, 9, 195, 169, 226, 130, 172] 7
    ∧ editorRowCxToRx ([97, 9, 195, 169, 226, 130, 172] ++ [130]) 7
      = editorRowCxToRx [97, 9, 195, 169, 226, 130, 172] 7 :=
  cx_to_rx_matches_spec [97, 9, 195, 169, 226, 130, 172] 7 [130] (by decide)

lemma matchAPlus_valid :
    ∀ (s : List Nat) (so eo : Nat), matchAPlus s = some (so, eo) →
      so < eo ∧ eo ≤ s.length := by
  intro s
  induction s with
  | nil => intro so eo h; simp [matchAPlus] at h
  | cons b rest ih =>
    intro so eo h
    simp only [matchAPlus] at h
    by_cases hb : b = 97
    · rw [if_pos hb] at h
      obtain ⟨rfl, rfl⟩ : so = 0 ∧ eo = 1 + (rest.takeWhile (fun x => x == 97)).length := by
        have := h.symm
        exact ⟨congrArg Prod.fst (Option.some.inj this), congrArg Prod.snd (Option.some.inj this)⟩
      have hlen : (rest.takeWhile (fun x => x == 97)).length ≤ rest.length :=
        (List.takeWhile_sublist _).length_le
      constructor
      · omega
      · simp only [List.length_cons]; omega
    · rw [if_neg hb] at h
      cases hm2 : matchAPlus rest with
      | none => rw [hm2] at h; exact absurd h (by simp)
      | some p =>
        obtain ⟨so', eo'⟩ := p
        rw [hm2] at h
        obtain ⟨rfl, rfl⟩ : so = so' + 1 ∧ eo = eo' + 1 := by
          have := h.symm
          exact ⟨congrArg Prod.fst (Option.some.inj this), congrArg Prod.snd (Option.some.inj this)⟩
        have := ih so' eo' hm2
        constructor
        · omega
        · simp only [List.length_cons]; omega

lemma replLoop_isSome (m : Matcher) (repl : List Nat) (global : Bool)
    (hm : ∀ s so eo, m s = some (so, eo) → so < eo ∧ eo ≤ s.length) :
    ∀ fuel row offset count, row.length - offset < fuel →
      (replLoop m repl global fuel row offset count).isSome := by
  intro fuel
  induction fuel with
  | zero => intro row offset count h; omega
  | succ fuel ih =>
    intro row offset count h
    cases hmm : m (row.drop offset) with
    | none => simp [replLoop, hmm]
    | some p =>
      obtain ⟨so, eo⟩ := p
      have hval := hm _ _ _ hmm
      simp only [List.length_drop] at hval
      simp only [replLoop, hmm]
      cases global with
      | false => simp
      | true =>
        apply ih
        simp only [List.length_append, List.length_take, List.length_drop]
        omega

lemma replBuf_isSome (m : Matcher) (repl : List Nat) (global : Bool)
    (hm : ∀ s so eo, m s = some (so, eo) → so < eo ∧ eo ≤ s.length) :
    ∀ rows count, (replBuf m repl global rows count).isSome := by
  intro rows
  induction rows with
  | nil => intro count; simp [replBuf]
  | cons r rs ih =>
    intro count
    have hl := replLoop_isSome m repl global hm (r.length + 1) r 0 count (by omega)
    cases hres : replLoop m repl global (r.length + 1) r 0 count with
    | none => rw [hres] at hl; exact absurd hl (by simp)
    | some p =>
      obtain ⟨r', count'⟩ := p
      simp only [replBuf, hres]
      by_cases hstop : global = false ∧ 0 < count'
      · rw [if_pos hstop]; simp
      · rw [if_neg hstop]
        have := ih count'
        cases hb : replBuf m repl global rs count' with
        | none => rw [hb] at this; exact absurd this (by simp)
        | some q => obtain ⟨rs', c2⟩ := q; simp

/-- C10: when the compiled pattern can never match the empty string (every
reported match has `rm_so < rm_eo`, and `regexec` only reports spans inside
the searched suffix), the substitution pass over every buffer terminates for
every replacement string and either flag — each replacement strictly shrinks
the unsearched suffix of its row, so the per-row loop bound `size + 1` is
never exhausted. -/
theorem regex_replace_terminates (m : Matcher)
    (hm : ∀ s so eo, m s = some (so, eo) → so < eo ∧ eo ≤ s.length)
    (repl : List Nat) (global : Bool) (s : EState) :
    (editorRegexReplace (some m) repl global s).isSome := by
  have h := replBuf_isSome m repl global hm s.rows 0
  cases hb : replBuf m repl global s.rows 0 with
  | none => rw [hb] at h; exact absurd h (by simp)
  | some p =>
    obtain ⟨rows', count⟩ := p
    simp [editorRegexReplace, hb]

/-- Witness for C10: the `a+` matcher never matches the empty string, and the
substitution over the example buffer indeed finishes. -/
theorem regex_replace_terminates_witness :
    (editorRegexReplace (some matchAPlus) [98] true regexExampleState).isSome :=
  regex_replace_terminates matchAPlus matchAPlus_valid [98] true regexExampleState

lemma replLoop_false_count (m : Matcher) (repl : List Nat) :
    ∀ fuel row offset count r' c',
      replLoop m repl false fuel row offset count = some (r', c') →
      c' ≤ count + 1 := by
  intro fuel row offset count r' c' h
  cases fuel with
  | zero => exact absurd h (by simp [replLoop])
  | succ fuel =>
    cases hmm : m (row.drop offset) with
    | none =>
      simp only [replLoop, hmm, Option.some.injEq, Prod.mk.injEq] at h
      omega
    | some p =>
      obtain ⟨so, eo⟩ := p
      simp only [replLoop, hmm, Bool.false_eq_true, if_false,
        Option.some.injEq, Prod.mk.injEq] at h
      omega

lemma replBuf_false_count (m : Matcher) (repl : List Nat) :
    ∀ rows r c, replBuf m repl false rows 0 = some (r, c) → c ≤ 1 := by
  intro rows
  induction rows with
  | nil =>
    intro r c h
    simp only [replBuf, Option.some.injEq, Prod.mk.injEq] at h
    omega
  | cons row rs ih =>
    intro r c h
    cases hres : replLoop m repl false (row.length + 1) row 0 0 with
    | none => rw [replBuf, hres] at h; exact absurd h (by simp)
    | some p =>
      obtain ⟨r', c'⟩ := p
      have hc' : c' ≤ 1 := replLoop_false_count m repl _ row 0 0 r' c' hres
      simp only [replBuf, hres, true_and] at h
      by_cases hstop : 0 < c'
      · rw [if_pos hstop] at h
        simp only [Option.some.injEq, Prod.mk.injEq] at h
        omega
      · rw [if_neg hstop] at h
        have hz : c' = 0 := by omega
        subst hz
        cases hb : replBuf m repl false rs 0 with
        | none => rw [hb] at h; exact absurd h (by simp)
        | some q =>
          obtain ⟨rs', c2⟩ := q
          rw [hb] at h
          simp only [Option.some.injEq, Prod.mk.injEq] at h
          have := ih rs' c2 hb
          omega

/-- C7: global substitution of `a+` by `"b"` over `["aaa", "xaay", "aaa"]`
yields `["b", "xby", "b"]` reporting count 3 (each row's search resumes just
past the inserted replacement); non-global mode stops after the single first
replacement anywhere in the buffer, yielding `["b", "xaay", "aaa"]` with
count 1, and in general a non-global pass never reports more than one
replacement; a pattern that fails to compile reports the distinct
invalid-regex error and performs zero replacements. -/
theorem regex_substitution_behavior :
    (editorRegexReplace (some matchAPlus) [98] true regexExampleState
      = some { regexExampleState with
                rows := [[98], [120, 98, 121], [98]],
                dirty := 3,
                statusmsg := statusReplaced 3 })
    ∧ (editorRegexReplace (some matchAPlus) [98] false regexExampleState
      = some { regexExampleState with
                rows := [[98], [120, 97, 97, 121], [97, 97, 97]],
                dirty := 1,
                statusmsg := statusReplaced 1 })
    ∧ (∀ (repl : List Nat) (g : Bool) (s : EState),
        editorRegexReplace none repl g s
          = some { s with statusmsg := "Error: Invalid Regex" })
    ∧ (∀ (m : Matcher) (repl : List Nat) (rows : List (List Nat)),
        replCount (replBuf m repl false rows 0) ≤ 1) := by
  refine ⟨by decide, by decide, fun repl g s => rfl, ?_⟩
  intro m repl rows
  cases hb : replBuf m repl false rows 0 with
  | none => simp [replCount]
  | some p =>
    obtain ⟨r, c⟩ := p
    simpa [replCount] using replBuf_false_count m repl rows r c hb

/-- Counterexample to C2: the command processor has no line-jump branch —
the command `"2"` on a 5-row buffer is swallowed by the unrecognized-command
fall-through, leaving the state unchanged, so the cursor stays at row 0
rather than moving to row index 1. -/
theorem line_jump_counterexample :
    editorProcessCommand env0 [50] fiveRowState
      = some (KeyOutcome.next fiveRowState)
    ∧ fiveRowState.cy = 0 :=
  ⟨rfl, rfl⟩

/-- C2 amended: a command line starting with a digit matches none of `q`,
`q!`, `w`, `wq`, `r/…`, so `editorProcessCommand` ignores it: the state
(cursor included) is returned unchanged. -/
theorem line_jump_ignored (env : Env) (s : EState) (d : Nat) (rest : List Nat)
    (h1 : 48 ≤ d) (h2 : d ≤ 57) :
    editorProcessCommand env (d :: rest) s = some (KeyOutcome.next s) := by
  have hq : d :: rest ≠ [113] := by
    intro hc
    obtain ⟨hd, -⟩ := List.cons.inj hc
    omega
  have hq2 : d :: rest ≠ [113, 33] := by
    intro hc
    obtain ⟨hd, -⟩ := List.cons.inj hc
    omega
  have hw : d :: rest ≠ [119] := by
    intro hc
    obtain ⟨hd, -⟩ := List.cons.inj hc
    omega
  have hwq : d :: rest ≠ [119, 113] := by
    intro hc
    obtain ⟨hd, -⟩ := List.cons.inj hc
    omega
  have hr : ¬((d :: rest).getD 0 0 = 114 ∧ (d :: rest).getD 1 0 = 47) := by
    intro hc
    have : d = 114 := hc.1
    omega
  rw [editorProcessCommand, if_neg (by simp), if_neg hq, if_neg hq2, if_neg hw,
    if_neg hwq, if_neg hr]

/-- Witness for C2 amended at the spec's other example: the command `"99"`
on the 5-row buffer also leaves the state unchanged (no clamp to the last
row happens, because no jump happens at all). -/
theorem line_jump_ignored_witness :
    editorProcessCommand env0 [57, 57] fiveRowState
      = some (KeyOutcome.next fiveRowState) :=
  line_jump_ignored env0 fiveRowState 57 [57] (by decide) (by decide)

/-- C9: on the empty buffer (the initial editor state) the `DEL_KEY` branch
reads `E.row[E.cy]` — row index 0 of a zero-row array — before any bounds
check, so the keypress hits an out-of-bounds access (`none`) instead of
being a no-op. -/
theorem del_key_empty_buffer_out_of_bounds :
    editorProcessKeypress env0 1004 emptyBufState = none
    ∧ emptyBufState.rows.get? emptyBufState.cy = none :=
  ⟨rfl, rfl⟩

lemma insertRowS_dirty (at_ : Nat) (content : List Nat) (s : EState) :
    s.dirty ≤ (editorInsertRowS at_ content s).dirty := by
  rw [editorInsertRowS]
  split_ifs
  · exact le_refl _
  · exact Nat.le_succ _

lemma delRowS_dirty (at_ : Nat) (s : EState) :
    s.dirty ≤ (editorDelRowS at_ s).dirty := by
  rw [editorDelRowS]
  split_ifs
  · exact le_refl _
  · exact Nat.le_succ _

lemma rowDelBytesS_dirty (s : EState) (i a l : Nat) :
    s.dirty ≤ (editorRowDelBytesS s i a l).dirty := by
  rw [editorRowDelBytesS]
  cases hg : s.rows.get? i with
  | none => exact le_refl _
  | some r =>
    show s.dirty ≤ (if a ≥ r.length then s
      else { s with rows := s.rows.set i (r.take a ++ r.drop (a + l)),
                    dirty := s.dirty + 1 }).dirty
    split_ifs
    · exact le_refl _
    · exact Nat.le_succ _

lemma insertChar_dirty (s : EState) (c : Nat) (u : EState)
    (h : editorInsertChar s c = some u) : s.dirty < u.dirty := by
  rw [editorInsertChar] at h
  by_cases hcy : s.cy = s.rows.length
  · rw [if_pos hcy] at h
    cases hg : (editorInsertRowS s.rows.length [] s).rows.get?
        (editorInsertRowS s.rows.length [] s).cy with
    | none => rw [hg] at h; exact Option.noConfusion h
    | some r =>
      rw [hg] at h
      obtain rfl := Option.some.inj h
      exact lt_of_le_of_lt (insertRowS_dirty _ _ _) (Nat.lt_succ_self _)
  · rw [if_neg hcy] at h
    cases hg : s.rows.get? s.cy with
    | none => rw [hg] at h; exact Option.noConfusion h
    | some r =>
      rw [hg] at h
      obtain rfl := Option.some.inj h
      exact Nat.lt_succ_self _

lemma insertNewline_dirty (s u : EState) (h : editorInsertNewline s = some u) :
    s.dirty ≤ u.dirty := by
  rw [editorInsertNewline] at h
  split_ifs at h
  · obtain rfl := Option.some.inj h
    exact insertRowS_dirty _ _ _
  · cases hg : s.rows.get? s.cy with
    | none => rw [hg] at h; exact Option.noConfusion h
    | some r =>
      rw [hg] at h
      obtain rfl := Option.some.inj h
      exact insertRowS_dirty _ _ _

lemma delChar_dirty (s u : EState) (h : editorDelChar s = some u) :
    s.dirty ≤ u.dirty := by
  rw [editorDelChar] at h
  split_ifs at h
  · obtain rfl := Option.some.inj h; exact le_refl _
  · obtain rfl := Option.some.inj h; exact le_refl _
  · cases hg : s.rows.get? s.cy with
    | none => rw [hg] at h; exact Option.noConfusion h
    | some r =>
      rw [hg] at h
      obtain rfl := Option.some.inj h
      exact rowDelBytesS_dirty s s.cy (s.cx - delLen r s.cx 1) (delLen r s.cx 1)
  · cases hg1 : s.rows.get? (s.cy - 1) with
    | none =>
      cases hg2 : s.rows.get? s.cy with
      | none => rw [hg1, hg2] at h; exact Option.noConfusion h
      | some cur => rw [hg1, hg2] at h; exact Option.noConfusion h
    | some prev =>
      cases hg2 : s.rows.get? s.cy with
      | none => rw [hg1, hg2] at h; exact Option.noConfusion h
      | some cur =>
        rw [hg1, hg2] at h
        obtain rfl := Option.some.inj h
        have hd := delRowS_dirty s.cy
          { s with cx := prev.length,
                   rows := s.rows.set (s.cy - 1) (prev ++ cur),
                   dirty := s.dirty + 1 }
        exact le_trans (Nat.le_succ _) hd

lemma delForward_dirty (s u : EState) (h : editorDelForward s = some u) :
    s.dirty ≤ u.dirty := by
  rw [editorDelForward] at h
  cases hg : s.rows.get? s.cy with
  | none => rw [hg] at h; exact Option.noConfusion h
  | some r =>
    rw [hg] at h
    replace h :
        (if s.cx < r.length then
          some (editorRowDelBytesS s s.cy s.cx (fwdLen r s.cx 1))
        else if s.cy + 1 < s.rows.length then
          (match s.rows.get? (s.cy + 1) with
           | none => none
           | some nxt =>
             some { editorDelRowS (s.cy + 1)
                      { s with cx := r.length,
                               rows := s.rows.set s.cy (r ++ nxt),
                               dirty := s.dirty + 1 } with cy := s.cy })
        else some s) = some u := h
    split_ifs at h
    · obtain rfl := Option.some.inj h
      exact rowDelBytesS_dirty s s.cy s.cx (fwdLen r s.cx 1)
    · cases hg2 : s.rows.get? (s.cy + 1) with
      | none => rw [hg2] at h; exact Option.noConfusion h
      | some nxt =>
        rw [hg2] at h
        obtain rfl := Option.some.inj h
        have hd := delRowS_dirty (s.cy + 1)
          { s with cx := r.length,
                   rows := s.rows.set s.cy (r ++ nxt),
                   dirty := s.dirty + 1 }
        exact le_trans (Nat.le_succ _) hd
    · obtain rfl := Option.some.inj h
      exact le_refl _

lemma keySwitch_dirty (c : Nat) (s u : EState)
    (h : editorKeySwitch c s = some u) : s.dirty ≤ u.dirty := by
  rw [editorKeySwitch] at h
  by_cases h13 : c = 13
  · rw [if_pos h13] at h
    exact insertNewline_dirty s u h
  rw [if_neg h13] at h
  by_cases h05 : c = 1005
  · rw [if_pos h05] at h
    obtain rfl := Option.some.inj h
    exact le_refl _
  rw [if_neg h05] at h
  by_cases h06 : c = 1006
  · rw [if_pos h06] at h
    obtain rfl := Option.some.inj h
    split_ifs <;> exact le_refl _
  rw [if_neg h06] at h
  by_cases hdel : c = 127 ∨ c = 8 ∨ c = 1004
  · rw [if_pos hdel] at h
    by_cases h04 : c = 1004
    · rw [if_pos h04] at h
      exact delForward_dirty s u h
    · rw [if_neg h04] at h
      exact delChar_dirty s u h
  rw [if_neg hdel] at h
  by_cases h02 : c = 1002
  · rw [if_pos h02] at h
    obtain rfl := Option.some.inj h
    split_ifs <;> exact le_refl _
  rw [if_neg h02] at h
  by_cases h03 : c = 1003
  · rw [if_pos h03] at h
    obtain rfl := Option.some.inj h
    split_ifs <;> exact le_refl _
  rw [if_neg h03] at h
  by_cases h00 : c = 1000
  · rw [if_pos h00] at h
    obtain rfl := Option.some.inj h
    split_ifs <;> exact le_refl _
  rw [if_neg h00] at h
  by_cases h01 : c = 1001
  · rw [if_pos h01] at h
    obtain rfl := Option.some.inj h
    split_ifs <;> exact le_refl _
  rw [if_neg h01] at h
  by_cases h07 : c = 1007
  · rw [if_pos h07] at h
    obtain rfl := Option.some.inj h
    exact le_refl _
  rw [if_neg h07] at h
  by_cases h08 : c = 1008
  · rw [if_pos h08] at h
    obtain rfl := Option.some.inj h
    exact le_refl _
  rw [if_neg h08] at h
  by_cases h27 : c = 27
  · rw [if_pos h27] at h
    obtain rfl := Option.some.inj h
    exact le_refl _
  rw [if_neg h27] at h
  by_cases hins : iscntrlB c = false ∨ c = 9
  · rw [if_pos hins] at h
    exact le_of_lt (insertChar_dirty s c u h)
  · rw [if_neg hins] at h
    obtain rfl := Option.some.inj h
    exact le_refl _

lemma clampCx_dirty (v : EState) : (clampCx v).dirty = v.dirty := by
  rw [clampCx]
  split_ifs <;> rfl

/-- Counterexample to C3: the first `Ctrl+Q` press on a dirty buffer — a
key-processing step that neither loads nor saves — resets `dirty` to 0 (so
that a second `Ctrl+Q` quits). -/
theorem ctrl_q_clears_dirty_counterexample :
    dirtyState.dirty ≠ 0
    ∧ editorProcessKeypress env0 17 dirtyState
      = some (KeyOutcome.next { dirtyState with
          statusmsg := "Unsaved changes! Press Ctrl+Q again.", dirty := 0 }) :=
  ⟨by decide, rfl⟩

/-- C3 amended: every mutating buffer operation marks the buffer dirty
(row insertion in range, row deletion in range, character insertion), a
successful load or save clears the flag, and the only keypresses that can
take `dirty` from set to clear are `Ctrl+Q` (the quit-confirmation reset),
`Ctrl+S` (save), and `Ctrl+X` (command processing, which can save). -/
theorem dirty_flag_transitions :
    (∀ (at_ : Nat) (content : List Nat) (s : EState), at_ ≤ s.rows.length →
      (editorInsertRowS at_ content s).dirty = s.dirty + 1)
    ∧ (∀ (at_ : Nat) (s : EState), at_ < s.rows.length →
      (editorDelRowS at_ s).dirty = s.dirty + 1)
    ∧ (∀ (s : EState) (c : Nat) (u : EState), editorInsertChar s c = some u →
      s.dirty < u.dirty)
    ∧ (∀ (f : List Nat) (name : String) (s : EState),
      (editorOpenS (some f) name s).dirty = 0)
    ∧ (∀ s : EState, s.filename ≠ none → (editorSave true s).dirty = 0)
    ∧ (∀ (env : Env) (c : Nat) (s s' : EState),
      editorProcessKeypress env c s = some (KeyOutcome.next s') →
      s.dirty ≠ 0 → s'.dirty = 0 → c = 17 ∨ c = 19 ∨ c = 24) := by
  refine ⟨?_, ?_, fun s c u h => insertChar_dirty s c u h, fun f name s => rfl,
    ?_, ?_⟩
  · intro at_ content s hle
    rw [editorInsertRowS, if_neg (by omega)]
  · intro at_ s hlt
    rw [editorDelRowS, if_neg (by omega)]
  · intro s hf
    cases hn : s.filename with
    | none => exact absurd hn hf
    | some f => rw [editorSave, hn]; rfl
  · intro env c s s' h hd hz
    by_cases h17 : c = 17
    · exact Or.inl h17
    by_cases h19 : c = 19
    · exact Or.inr (Or.inl h19)
    by_cases h24 : c = 24
    · exact Or.inr (Or.inr h24)
    exfalso
    rw [editorProcessKeypress, if_neg h17, if_neg h19, if_neg h24] at h
    obtain ⟨u, hu, heq⟩ := Option.map_eq_some'.mp h
    injection heq with h2
    have hm := keySwitch_dirty c s u hu
    have hc := clampCx_dirty u
    rw [h2] at hc
    omega

/-- Witness for C3 amended: inserting a row at the front of the empty buffer
marks it dirty, and the dirty-clearing `Ctrl+Q` press is one of the three
listed keys. -/
theorem dirty_flag_transitions_witness :
    (editorInsertRowS 0 [] emptyBufState).dirty = emptyBufState.dirty + 1
    ∧ ((17 : Nat) = 17 ∨ (17 : Nat) = 19 ∨ (17 : Nat) = 24) :=
  ⟨dirty_flag_transitions.1 0 [] emptyBufState (by decide),
   dirty_flag_transitions.2.2.2.2.2 env0 17 dirtyState
     { dirtyState with statusmsg := "Unsaved changes! Press Ctrl+Q again.",
                       dirty := 0 }
     rfl (by decide) rfl⟩

lemma clampCx_le (v : EState) : (clampCx v).cx ≤ rowLenOf (clampCx v) := by
  rw [clampCx]
  split_ifs with hcl
  · exact le_refl _
  · omega

/-- Counterexample to C4: a left-arrow keypress moves the cursor back a
single byte, so after crossing the 2-byte character `é` the byte offset 1
points at the continuation byte `0xA9`. -/
theorem left_arrow_continuation_counterexample :
    editorProcessKeypress env0 1000 accentRowState
      = some (KeyOutcome.next { accentRowState with cx := 1 })
    ∧ is_utf8_continuation
        ((accentRowState.rows.getD accentRowState.cy []).getD 1 0) = true :=
  ⟨rfl, rfl⟩

/-- C4 amended: after every keypress other than the `Ctrl+Q`/`Ctrl+S`/
`Ctrl+X` shortcuts (which return before the clamp), the cursor byte offset
is at most the current row's length — the final clamp enforces this
unconditionally; the offset may however land on a UTF-8 continuation byte. -/
theorem cursor_within_row_after_keypress (env : Env) (c : Nat) (s s' : EState)
    (h17 : c ≠ 17) (h19 : c ≠ 19) (h24 : c ≠ 24)
    (h : editorProcessKeypress env c s = some (KeyOutcome.next s')) :
    s'.cx ≤ rowLenOf s' := by
  rw [editorProcessKeypress, if_neg h17, if_neg h19, if_neg h24] at h
  obtain ⟨u, hu, heq⟩ := Option.map_eq_some'.mp h
  injection heq with h2
  rw [← h2]
  exact clampCx_le u

/-- Witness for C4 amended: the left-arrow keypress over `é` lands within
the row (offset 1 of a 2-byte row). -/
theorem cursor_within_row_after_keypress_witness :
    ({ accentRowState with cx := 1 } : EState).cx
      ≤ rowLenOf { accentRowState with cx := 1 } :=
  cursor_within_row_after_keypress env0 1000 accentRowState
    { accentRowState with cx := 1 } (by decide) (by decide) (by decide) rfl

end Quecto
